import Mathlib

/-!
Verification of the PCG visualization client's navigation, filtering, caching,
highlighting and persistence logic, shallowly embedded from the TypeScript
sources (`visualization/src`, `pcg-bin/visualization/src`).

Conventions of the embedding:
* TS arrays become `List`, JS `Map`/`localStorage` become association lists,
  JS `Set` becomes `Finset`.
* String-literal union types (phase names, action-kind discriminators) are
  kept as `String`, matching their runtime representation.
* `async` methods are split at their `await` points into explicit start /
  resume steps over an explicit shared state, mirroring the single-threaded
  event-loop model: each segment runs atomically.
-/

namespace PcgViz

/-- A MIR statement; only the fields the embedded functions read are kept
(the rendering string, used for the `"resume"` terminator test). -/
structure MirStmt where
  stmt : String
  deriving DecidableEq, Repr

/-- A node of the MIR control-flow graph (`MirNode` in generated/types). -/
structure MirNode where
  id : String
  block : Nat
  stmts : List MirStmt
  terminator : MirStmt
  deriving DecidableEq, Repr

instance : Inhabited MirNode := ⟨⟨"", 0, [], ⟨""⟩⟩⟩

/-- An edge of the MIR control-flow graph (`MirEdge` in generated/types). -/
structure MirEdge where
  source : String
  target : String
  label : String
  deriving DecidableEq, Repr

/-- The discriminated kind of a PCG action; `type` is the TS discriminator
string (`action.data.kind.type`).  The per-kind payload is irrelevant to the
claims and abstracted into `rendered`. -/
structure ActionKind where
  type : String
  rendered : String
  deriving DecidableEq, Repr

/-- `action.data`: the kind plus optional debug context. -/
structure ActionData where
  kind : ActionKind
  deriving DecidableEq, Repr

/-- A PCG action (`PcgAction` in types.ts). -/
structure PcgAction where
  data : ActionData
  deriving DecidableEq, Repr

/-- The per-statement action record keyed by the four canonical
`EvalStmtPhase` names (`EvalStmtData` in generated/types). -/
structure EvalStmtData where
  pre_operands : List PcgAction
  post_operands : List PcgAction
  pre_main : List PcgAction
  post_main : List PcgAction
  deriving DecidableEq, Repr

/-- One entry of `iterations.at_phase`: a phase name and the dot-graph
filename rendered for that phase. -/
structure PhaseGraph where
  phase : String
  filename : String
  deriving DecidableEq, Repr

/-- `StmtGraphs`: the iteration payload for one statement. -/
structure StmtGraphs where
  at_phase : List PhaseGraph
  deriving DecidableEq, Repr

/-- `PcgProgramPointData`: either statement data (actions grouped by phase)
or successor/terminator data (a flat actions array).  The TS code
discriminates with `Array.isArray(pcgData.actions)`. -/
inductive PcgProgramPointData where
  | stmt (d : EvalStmtData)
  | successor (actions : List PcgAction)
  deriving DecidableEq, Repr

/-- `NavigatorPoint` (types.ts): the currently selected navigator position. -/
inductive NavigatorPoint where
  | action (phase : String) (index : Nat)
  | iteration (name : String)
  deriving DecidableEq, Repr

/-- `NavigationItem` (PCGNavigator): one steppable unit of the built
sequence. -/
inductive NavItem where
  | iteration (name : String) (filename : String)
  | action (phase : String) (index : Nat) (act : PcgAction)
  deriving DecidableEq, Repr

instance : Inhabited NavItem := ⟨.iteration "" ""⟩

/-- `CurrentPoint` (types.ts): the selected program point, carrying the
navigator position. -/
inductive CurrentPoint where
  | stmt (block : Nat) (stmtIdx : Nat) (navigatorPoint : NavigatorPoint)
  | terminator (block1 : Nat) (block2 : Nat) (navigatorPoint : Option NavigatorPoint)
  deriving DecidableEq, Repr

/-- The inclusion test applied wherever actions are listed:
`action.data.kind.type !== "MakePlaceOld" && action.data.kind.type !== "LabelLifetimeProjection"`. -/
def includedKind (a : PcgAction) : Bool :=
  a.data.kind.type ≠ "MakePlaceOld" && a.data.kind.type ≠ "LabelLifetimeProjection"

/-- The `phase in stmtData.actions` test: the action record has exactly the
four canonical `EvalStmtPhase` keys. -/
def isEvalStmtPhaseName (s : String) : Bool :=
  s = "pre_operands" || s = "post_operands" || s = "pre_main" || s = "post_main"

/-- `stmtData.actions[phase]` for a canonical phase name (`[]` otherwise;
the TS code only indexes after the `in` test succeeds). -/
def actionsFor (d : EvalStmtData) (s : String) : List PcgAction :=
  if s = "pre_operands" then d.pre_operands
  else if s = "post_operands" then d.post_operands
  else if s = "pre_main" then d.pre_main
  else if s = "post_main" then d.post_main
  else []

/-- The navigation items contributed by one phase's action list: the TS
`forEach((action, index) => if (kind ok) items.push(...))` keeps the original
index of each surviving action. -/
def actionNavItems (phase : String) (acts : List PcgAction) : List NavItem :=
  acts.enum.filterMap fun p =>
    if includedKind p.2 then some (.action phase p.1 p.2) else none

/-- The items contributed by one `at_phase` entry: the phase's actions first
(if the phase name is a key of the action record), then the phase marker
itself. -/
def navItemsForPhaseEntry (d : EvalStmtData) (pg : PhaseGraph) : List NavItem :=
  (if isEvalStmtPhaseName pg.phase then actionNavItems pg.phase (actionsFor d pg.phase)
   else []) ++ [.iteration pg.phase pg.filename]

/-- `buildNavigationItems` (PCGNavigator.tsx): successor data yields its flat
action list (filtered, indices preserved); statement data yields, for each
reported iteration phase in encounter order, its actions followed by the
phase marker. -/
def buildNavigationItems (pcgData : PcgProgramPointData)
    (iterations : Option StmtGraphs) : List NavItem :=
  match pcgData with
  | .successor acts => actionNavItems "successor" acts
  | .stmt d =>
    match iterations with
    | none => []
    | some gs => gs.at_phase.flatMap (navItemsForPhaseEntry d)

/-- The key pressed in the keyboard-navigation handler: `q` steps back,
`a` steps forward. -/
inductive NavKey where
  | q
  | a
  deriving DecidableEq, Repr

/-- What one key press does, as seen by the caller: nothing, select an item
in place, or signal a boundary crossing in one of the two directions (the
handler then returns without selecting). -/
inductive KeyOutcome where
  | nothing
  | select (p : NavigatorPoint)
  | advanceNext
  | goToPrevious
  deriving DecidableEq, Repr

/-- The `findIndex` of the currently selected point within the built items
(`none` models the TS `-1`). -/
def findCurrentIndex (items : List NavItem) (selectedPoint : Option NavigatorPoint) :
    Option Nat :=
  match selectedPoint with
  | none => none
  | some (.action ph i) =>
    items.findIdx? fun it =>
      match it with
      | .action p j _ => p == ph && j == i
      | _ => false
  | some (.iteration nm) =>
    items.findIdx? fun it =>
      match it with
      | .iteration n _ => n == nm
      | _ => false

/-- Turn the item at the computed index into the selected point, as the tail
of the handler does. -/
def selectItem (it : NavItem) : KeyOutcome :=
  match it with
  | .iteration n _ => .select (.iteration n)
  | .action p i _ => .select (.action p i)

/-- `handleKeyDown` (PCGNavigator.tsx, keyboard navigation): locate the
current index; on `-1` select last/first; otherwise step, and at the
boundary signal a crossing when the corresponding callback is installed,
falling back to wrapping within the sequence when it is not. -/
def handleKeyDown (key : NavKey) (items : List NavItem)
    (selectedPoint : Option NavigatorPoint)
    (hasAdvance : Bool) (hasPrevious : Bool) : KeyOutcome :=
  if items.length = 0 then .nothing
  else
    match findCurrentIndex items selectedPoint with
    | none =>
      selectItem (items.getD (if key = .q then items.length - 1 else 0) default)
    | some currentIndex =>
      match key with
      | .q =>
        if currentIndex = 0 then
          if hasPrevious then .goToPrevious
          else selectItem (items.getD (items.length - 1) default)
        else selectItem (items.getD (currentIndex - 1) default)
      | .a =>
        if currentIndex = items.length - 1 then
          if hasAdvance then .advanceNext
          else selectItem (items.getD 0 default)
        else selectItem (items.getD (currentIndex + 1) default)

/-- `onAdvanceToNextStatement` (AppInner.tsx): move to the next statement of
the current block, or from its last position wrap to the next block of the
*filtered* block list; the new position's navigator point is the sentinel
`"initial"` iteration.  States the code leaves unchanged are returned
as-is. -/
def onAdvanceToNextStatement (nodes filteredNodes : List MirNode)
    (cp : CurrentPoint) : CurrentPoint :=
  match cp with
  | .terminator _ _ _ => cp
  | .stmt block stmtIdx nav =>
    match nodes.find? (fun n => n.block == block) with
    | none => .stmt block stmtIdx nav
    | some currentNode =>
      let nextStmt := stmtIdx + 1
      if nextStmt ≤ currentNode.stmts.length then
        .stmt block nextStmt (.iteration "initial")
      else
        match filteredNodes.findIdx? (fun n => n.block == block) with
        | none => .stmt block stmtIdx nav
        | some currBlockIdx =>
          let nextBlockIdx := (currBlockIdx + 1) % filteredNodes.length
          let nextNode := filteredNodes.getD nextBlockIdx default
          .stmt nextNode.block 0 (.iteration "initial")

/-- `onGoToPreviousStatement` (AppInner.tsx): move to the previous statement
of the current block, or from its first statement wrap to the *last*
position of the previous filtered block; the new navigator point is the
`"post_main"` iteration. -/
def onGoToPreviousStatement (filteredNodes : List MirNode)
    (cp : CurrentPoint) : CurrentPoint :=
  match cp with
  | .terminator _ _ _ => cp
  | .stmt block stmtIdx nav =>
    if stmtIdx > 0 then
      .stmt block (stmtIdx - 1) (.iteration "post_main")
    else
      match filteredNodes.findIdx? (fun n => n.block == block) with
      | none => .stmt block stmtIdx nav
      | some currBlockIdx =>
        let prevBlockIdx :=
          (((currBlockIdx : Int) - 1 + filteredNodes.length) % filteredNodes.length).toNat
        let prevNode := filteredNodes.getD prevBlockIdx default
        .stmt prevNode.block prevNode.stmts.length (.iteration "post_main")

/-- One action line pushed by `getActionsForStmt` per included action, in
order; `actLine` abstracts the `actionLine` formatter of
actionFormatting.ts, whose per-kind output string is irrelevant here. -/
def pushIncludedLines (actLine : ActionKind → String) (acts : List PcgAction)
    (acc : List String) : List String :=
  acts.foldl (fun acc2 a => if includedKind a then acc2 ++ [actLine a.data.kind] else acc2) acc

/-- `getActionsForStmt` (BasicBlockTable.tsx): the inline action annotations
for one statement row — nothing when the inline toggle is off or no data
exists; otherwise every included action of the flat successor list, or of the
four canonical phases in order. -/
def getActionsForStmt (actLine : ActionKind → String) (showActionsInGraph : Bool)
    (pcgStmtData : Option (List (Nat × PcgProgramPointData)))
    (stmtIndex : Nat) : List String :=
  if !showActionsInGraph then []
  else
    match pcgStmtData with
    | none => []
    | some m =>
      match ((m.find? (fun p => p.1 == stmtIndex)).map (fun p => p.2) :
          Option PcgProgramPointData) with
      | none => []
      | some (.successor acts) => pushIncludedLines actLine acts []
      | some (.stmt d) =>
        pushIncludedLines actLine d.post_main
          (pushIncludedLines actLine d.pre_main
            (pushIncludedLines actLine d.post_operands
              (pushIncludedLines actLine d.pre_operands [])))

/-- `FilterOptions` (mir_graph.ts); `path : none` models the TS `null`
(note that an *empty* path array is truthy in JS and therefore active). -/
structure FilterOptions where
  showUnwindEdges : Bool
  path : Option (List Nat)
  deriving DecidableEq, Repr

/-- The `nodeIdToBlock` map of `computeReachableBlocks`: built by a
`forEach`/`Map.set` pass, so the *last* node with a given id wins. -/
def nodeIdToBlock (nodes : List MirNode) (id : String) : Option Nat :=
  (nodes.reverse.find? (fun n => n.id == id)).map (fun n => n.block)

/-- `edges.filter((e) => e.source === currentId)`. -/
def outgoingEdges (edges : List MirEdge) (currentId : String) : List MirEdge :=
  edges.filter (fun e => e.source == currentId)

/-- The body of the BFS `for (const edge of outgoingEdges)` loop: resolve each
target id to a block; newly seen blocks are added to the reachable set and
their target id appended to the pending queue (returned in push order). -/
def processEdges (ntb : String → Option Nat) :
    List MirEdge → Finset Nat → Finset Nat × List String
  | [], reachable => (reachable, [])
  | e :: rest, reachable =>
    match ntb e.target with
    | some targetBlock =>
      if targetBlock ∈ reachable then processEdges ntb rest reachable
      else
        let pr := processEdges ntb rest (insert targetBlock reachable)
        (pr.1, e.target :: pr.2)
    | none => processEdges ntb rest reachable

theorem processEdges_subset (ntb : String → Option Nat) (out : List MirEdge)
    (reachable : Finset Nat) : reachable ⊆ (processEdges ntb out reachable).1 := by
  induction out generalizing reachable with
  | nil => simp [processEdges]
  | cons e rest ih =>
    intro b hb
    cases h : ntb e.target with
    | none =>
      simp only [processEdges, h]
      exact ih reachable hb
    | some tb =>
      by_cases htb : tb ∈ reachable
      · simp only [processEdges, h, if_pos htb]
        exact ih reachable hb
      · simp only [processEdges, h, if_neg htb]
        exact ih (insert tb reachable) (Finset.mem_insert_of_mem hb)

theorem processEdges_mem (ntb : String → Option Nat) (out : List MirEdge)
    (reachable : Finset Nat) (b : Nat) (hb : b ∈ (processEdges ntb out reachable).1) :
    b ∈ reachable ∨ ∃ e ∈ out, ntb e.target = some b := by
  induction out generalizing reachable with
  | nil => simp [processEdges] at hb; exact Or.inl hb
  | cons e rest ih =>
    cases h : ntb e.target with
    | none =>
      simp only [processEdges, h] at hb
      rcases ih reachable hb with h1 | ⟨e2, he2, h2⟩
      · exact Or.inl h1
      · exact Or.inr ⟨e2, List.mem_cons_of_mem _ he2, h2⟩
    | some tb =>
      by_cases htb : tb ∈ reachable
      · simp only [processEdges, h, if_pos htb] at hb
        rcases ih reachable hb with h1 | ⟨e2, he2, h2⟩
        · exact Or.inl h1
        · exact Or.inr ⟨e2, List.mem_cons_of_mem _ he2, h2⟩
      · simp only [processEdges, h, if_neg htb] at hb
        rcases ih (insert tb reachable) hb with h1 | ⟨e2, he2, h2⟩
        · rcases Finset.mem_insert.mp h1 with rfl | h1
          · exact Or.inr ⟨e, List.mem_cons_self _ _, h⟩
          · exact Or.inl h1
        · exact Or.inr ⟨e2, List.mem_cons_of_mem _ he2, h2⟩

theorem processEdges_card (ntb : String → Option Nat) (out : List MirEdge)
    (reachable : Finset Nat) :
    (processEdges ntb out reachable).1.card =
      reachable.card + (processEdges ntb out reachable).2.length := by
  induction out generalizing reachable with
  | nil => simp [processEdges]
  | cons e rest ih =>
    cases h : ntb e.target with
    | none =>
      simp only [processEdges, h]
      exact ih reachable
    | some tb =>
      by_cases htb : tb ∈ reachable
      · simp only [processEdges, h, if_pos htb]
        exact ih reachable
      · simp only [processEdges, h, if_neg htb, List.length_cons]
        rw [ih (insert tb reachable), Finset.card_insert_of_not_mem htb]
        omega

theorem processEdges_pushed (ntb : String → Option Nat) (out : List MirEdge)
    (reachable : Finset Nat) (id : String)
    (hid : id ∈ (processEdges ntb out reachable).2) :
    ∃ e ∈ out, e.target = id ∧
      ∃ tb, ntb id = some tb ∧ tb ∈ (processEdges ntb out reachable).1 := by
  induction out generalizing reachable with
  | nil => simp [processEdges] at hid
  | cons e rest ih =>
    cases h : ntb e.target with
    | none =>
      simp only [processEdges, h] at hid ⊢
      rcases ih reachable hid with ⟨e2, he2, h2, tb, h3, h4⟩
      exact ⟨e2, List.mem_cons_of_mem _ he2, h2, tb, h3, h4⟩
    | some tb =>
      by_cases htb : tb ∈ reachable
      · simp only [processEdges, h, if_pos htb] at hid ⊢
        rcases ih reachable hid with ⟨e2, he2, h2, tb2, h3, h4⟩
        exact ⟨e2, List.mem_cons_of_mem _ he2, h2, tb2, h3, h4⟩
      · simp only [processEdges, h, if_neg htb] at hid ⊢
        rcases List.mem_cons.mp hid with rfl | hid2
        · refine ⟨e, List.mem_cons_self _ _, rfl, tb, h, ?_⟩
          exact processEdges_subset ntb rest _ (Finset.mem_insert_self _ _)
        · rcases ih (insert tb reachable) hid2 with ⟨e2, he2, h2, tb2, h3, h4⟩
          exact ⟨e2, List.mem_cons_of_mem _ he2, h2, tb2, h3, h4⟩

theorem processEdges_new_pushed (ntb : String → Option Nat) (out : List MirEdge)
    (reachable : Finset Nat) (b : Nat)
    (hb : b ∈ (processEdges ntb out reachable).1) (hnotin : b ∉ reachable) :
    ∃ id ∈ (processEdges ntb out reachable).2, ntb id = some b := by
  induction out generalizing reachable with
  | nil => simp [processEdges] at hb; exact absurd hb hnotin
  | cons e rest ih =>
    cases h : ntb e.target with
    | none =>
      simp only [processEdges, h] at hb ⊢
      exact ih reachable hb hnotin
    | some tb =>
      by_cases htb : tb ∈ reachable
      · simp only [processEdges, h, if_pos htb] at hb ⊢
        exact ih reachable hb hnotin
      · simp only [processEdges, h, if_neg htb] at hb ⊢
        by_cases hbtb : b = tb
        · subst hbtb
          exact ⟨e.target, List.mem_cons_self _ _, h⟩
        · rcases ih (insert tb reachable) hb (by simp [hbtb, hnotin]) with ⟨id2, hid2, h2⟩
          exact ⟨id2, List.mem_cons_of_mem _ hid2, h2⟩

theorem processEdges_closed (ntb : String → Option Nat) (out : List MirEdge)
    (reachable : Finset Nat) (e : MirEdge) (he : e ∈ out) (tb : Nat)
    (htb : ntb e.target = some tb) : tb ∈ (processEdges ntb out reachable).1 := by
  induction out generalizing reachable with
  | nil => simp at he
  | cons e2 rest ih =>
    rcases List.mem_cons.mp he with rfl | he2
    · by_cases h2 : tb ∈ reachable
      · simp only [processEdges, htb, if_pos h2]
        exact processEdges_subset ntb rest reachable h2
      · simp only [processEdges, htb, if_neg h2]
        exact processEdges_subset ntb rest _ (Finset.mem_insert_self _ _)
    · cases h : ntb e2.target with
      | none =>
        simp only [processEdges, h]
        exact ih reachable he2
      | some tb2 =>
        by_cases h2 : tb2 ∈ reachable
        · simp only [processEdges, h, if_pos h2]
          exact ih reachable he2
        · simp only [processEdges, h, if_neg h2]
          exact ih (insert tb2 reachable) he2

/-- The blocks added by `processEdges` all come from `nodeIdToBlock`, hence
are blocks of actual nodes. -/
theorem nodeIdToBlock_mem (nodes : List MirNode) (id : String) (b : Nat)
    (h : nodeIdToBlock nodes id = some b) : ∃ n ∈ nodes, n.block = b := by
  unfold nodeIdToBlock at h
  cases hf : (nodes.reverse.find? (fun n => n.id == id)) with
  | none => simp [hf] at h
  | some n =>
    simp only [hf] at h
    have hn : n ∈ nodes.reverse := List.mem_of_find?_eq_some hf
    exact ⟨n, List.mem_reverse.mp hn, by simpa using h⟩

/-- The BFS worklist loop of `computeReachableBlocks`: dequeue an id, enqueue
every newly reached target, repeat until the queue is empty. -/
def bfsLoop (nodes : List MirNode) (edges : List MirEdge) :
    List String → Finset Nat → Finset Nat
  | [], reachable => reachable
  | currentId :: rest, reachable =>
    let pr := processEdges (nodeIdToBlock nodes) (outgoingEdges edges currentId) reachable
    bfsLoop nodes edges (rest ++ pr.2) pr.1
termination_by queue reachable => ((nodes.map (fun n => n.block)).toFinset \ reachable).card + queue.length
decreasing_by
  simp only [List.length_append, List.length_cons]
  have hsub := processEdges_subset (nodeIdToBlock nodes) (outgoingEdges edges currentId) reachable
  have hcard := processEdges_card (nodeIdToBlock nodes) (outgoingEdges edges currentId) reachable
  set pr := processEdges (nodeIdToBlock nodes) (outgoingEdges edges currentId) reachable
  set allB := (nodes.map (fun n => n.block)).toFinset with hallB
  have hnew : pr.1 \ reachable ⊆ allB := by
    intro b hb
    rcases Finset.mem_sdiff.mp hb with ⟨hb1, hb2⟩
    rcases processEdges_mem _ _ _ _ hb1 with h | ⟨e, _, h⟩
    · exact absurd h hb2
    · rcases nodeIdToBlock_mem nodes e.target b h with ⟨n, hn, hnb⟩
      simp only [hallB, List.mem_toFinset, List.mem_map]
      exact ⟨n, hn, hnb⟩
  have hdisj : Disjoint (allB \ pr.1) (pr.1 \ reachable) := by
    apply Finset.disjoint_left.mpr
    intro b hb hb2
    exact (Finset.mem_sdiff.mp hb).2 (Finset.mem_sdiff.mp hb2).1
  have hunion : (allB \ pr.1) ∪ (pr.1 \ reachable) ⊆ allB \ reachable := by
    intro b hb
    rcases Finset.mem_union.mp hb with hb | hb
    · rcases Finset.mem_sdiff.mp hb with ⟨h1, h2⟩
      exact Finset.mem_sdiff.mpr ⟨h1, fun hc => h2 (hsub hc)⟩
    · rcases Finset.mem_sdiff.mp hb with ⟨h1, h2⟩
      exact Finset.mem_sdiff.mpr ⟨hnew (Finset.mem_sdiff.mpr ⟨h1, h2⟩), h2⟩
  have hle : (allB \ pr.1).card + (pr.1 \ reachable).card ≤ (allB \ reachable).card := by
    rw [← Finset.card_union_of_disjoint hdisj]
    exact Finset.card_le_card hunion
  have hlen : (pr.1 \ reachable).card = pr.2.length := by
    have h1 : pr.1 \ reachable ∪ reachable = pr.1 := by
      apply Finset.sdiff_union_of_subset hsub
    have h2 : (pr.1 \ reachable).card + reachable.card = pr.1.card := by
      rw [← Finset.card_union_of_disjoint (Finset.sdiff_disjoint), h1]
    omega
  omega

/-- `computeReachableBlocks` (mir_graph.ts): breadth-first traversal from the
first node of block 0; returns the set of reached block ids (empty when no
block-0 node exists). -/
def computeReachableBlocks (nodes : List MirNode) (edges : List MirEdge) : Finset Nat :=
  match nodes.find? (fun n => n.block == 0) with
  | none => ∅
  | some bb0Node => bfsLoop nodes edges [bb0Node.id] {0}

/-- Specification-level step relation between blocks: some edge connects a
node of block `b` to a node of block `b2` (ids resolved against the node
list). -/
def blockStep (nodes : List MirNode) (edges : List MirEdge) (b b2 : Nat) : Prop :=
  ∃ e ∈ edges, ∃ n ∈ nodes, ∃ n2 ∈ nodes,
    n.id = e.source ∧ n2.id = e.target ∧ n.block = b ∧ n2.block = b2

/-- Specification-level forward reachability from block 0, as the reflexive
transitive closure of `blockStep` (together with existence of the endpoint
blocks). -/
def blockReachable (nodes : List MirNode) (edges : List MirEdge) (b : Nat) : Prop :=
  (∃ n0 ∈ nodes, n0.block = 0) ∧ (∃ n ∈ nodes, n.block = b) ∧
    Relation.ReflTransGen (blockStep nodes edges) 0 b

theorem nodeIdToBlock_spec (nodes : List MirNode) (id : String) (b : Nat)
    (h : nodeIdToBlock nodes id = some b) : ∃ n ∈ nodes, n.id = id ∧ n.block = b := by
  unfold nodeIdToBlock at h
  cases hf : (nodes.reverse.find? (fun n => n.id == id)) with
  | none => simp [hf] at h
  | some n =>
    simp only [hf] at h
    have hn : n ∈ nodes.reverse := List.mem_of_find?_eq_some hf
    have hp : n.id = id := by simpa using List.find?_some hf
    exact ⟨n, List.mem_reverse.mp hn, hp, by simpa using h⟩

/-- With distinct node ids, `nodeIdToBlock` resolves the id of a member node
to that node's block. -/
theorem nodeIdToBlock_eq (nodes : List MirNode)
    (hid : (nodes.map (fun n => n.id)).Nodup) (n : MirNode) (hn : n ∈ nodes) :
    nodeIdToBlock nodes n.id = some n.block := by
  unfold nodeIdToBlock
  cases hf : (nodes.reverse.find? (fun m => m.id == n.id)) with
  | none =>
    exfalso
    have := List.find?_eq_none.mp hf n (List.mem_reverse.mpr hn)
    simp at this
  | some m =>
    have hm : m ∈ nodes := List.mem_reverse.mp (List.mem_of_find?_eq_some hf)
    have hp : m.id = n.id := by simpa using List.find?_some hf
    have : m = n := List.inj_on_of_nodup_map hid hm hn hp
    subst this
    rfl

/-- With distinct node blocks, nodes with equal blocks are equal. -/
theorem block_inj (nodes : List MirNode)
    (hblk : (nodes.map (fun n => n.block)).Nodup) (n m : MirNode)
    (hn : n ∈ nodes) (hm : m ∈ nodes) (h : n.block = m.block) : n = m :=
  List.inj_on_of_nodup_map hblk hn hm h

theorem bfsLoop_mono (nodes : List MirNode) (edges : List MirEdge)
    (queue : List String) (reachable : Finset Nat) :
    reachable ⊆ bfsLoop nodes edges queue reachable := by
  induction queue, reachable using bfsLoop.induct nodes edges with
  | case1 reachable => simp [bfsLoop]
  | case2 currentId rest reachable pr =>
    rename_i ih
    rw [bfsLoop]
    exact fun b hb => ih (processEdges_subset _ _ _ hb)

/-- Soundness of the BFS: every block in the final set has a node and is
`blockStep`-reachable from block 0, provided the invariant holds of the
starting state. -/
theorem bfsLoop_sound (nodes : List MirNode) (edges : List MirEdge)
    (queue : List String) (reachable : Finset Nat)
    (hreach : ∀ b ∈ reachable, (∃ n ∈ nodes, n.block = b) ∧
      Relation.ReflTransGen (blockStep nodes edges) 0 b)
    (hqueue : ∀ id ∈ queue, ∃ n ∈ nodes, n.id = id ∧ n.block ∈ reachable) :
    ∀ b ∈ bfsLoop nodes edges queue reachable,
      (∃ n ∈ nodes, n.block = b) ∧
        Relation.ReflTransGen (blockStep nodes edges) 0 b := by
  induction queue, reachable using bfsLoop.induct nodes edges with
  | case1 reachable =>
    intro b hb
    rw [bfsLoop] at hb
    exact hreach b hb
  | case2 currentId rest reachable pr =>
    rename_i ih
    intro b hb
    rw [bfsLoop] at hb
    rcases hqueue currentId (List.mem_cons_self _ _) with ⟨ncur, hncur, hncurid, hncurblk⟩
    have hreach2 : ∀ b2 ∈ pr.1, (∃ n ∈ nodes, n.block = b2) ∧
        Relation.ReflTransGen (blockStep nodes edges) 0 b2 := by
      intro b2 hb2
      rcases processEdges_mem _ _ _ _ hb2 with h | ⟨e, he, h⟩
      · exact hreach b2 h
      · rcases nodeIdToBlock_spec nodes e.target b2 h with ⟨n2, hn2, hn2id, hn2blk⟩
        have he2 : e ∈ edges ∧ e.source = currentId := by
          have h3 := he
          simp only [outgoingEdges, List.mem_filter] at h3
          exact ⟨h3.1, by simpa using h3.2⟩
        have hstep : blockStep nodes edges ncur.block b2 :=
          ⟨e, he2.1, ncur, hncur, n2, hn2, by rw [hncurid, he2.2], hn2id, rfl, hn2blk⟩
        rcases hreach ncur.block hncurblk with ⟨_, hrtg⟩
        exact ⟨⟨n2, hn2, hn2blk⟩, hrtg.tail hstep⟩
    have hqueue2 : ∀ id ∈ rest ++ pr.2, ∃ n ∈ nodes, n.id = id ∧ n.block ∈ pr.1 := by
      intro id hidm
      rcases List.mem_append.mp hidm with hidm | hidm
      · rcases hqueue id (List.mem_cons_of_mem _ hidm) with ⟨n, hn, hnid, hnblk⟩
        exact ⟨n, hn, hnid, processEdges_subset _ _ _ hnblk⟩
      · rcases processEdges_pushed _ _ _ _ hidm with ⟨e, he, hetgt, tb, htb, htbmem⟩
        rcases nodeIdToBlock_spec nodes id tb htb with ⟨n, hn, hnid, hnblk⟩
        exact ⟨n, hn, hnid, hnblk ▸ htbmem⟩
    exact ih hreach2 hqueue2 b hb

/-- Closure of the BFS result: once the queue has drained, the computed set
is closed under `blockStep`, provided every block of the starting set either
still has its id pending in the queue or is already closed.  Needs node ids
and blocks to be duplicate-free (the data-model invariant: one node per
basic block). -/
theorem bfsLoop_closed (nodes : List MirNode) (edges : List MirEdge)
    (hid : (nodes.map (fun n => n.id)).Nodup)
    (hblk : (nodes.map (fun n => n.block)).Nodup)
    (queue : List String) (reachable : Finset Nat)
    (hinv : ∀ b ∈ reachable, (∃ id ∈ queue, nodeIdToBlock nodes id = some b) ∨
      (∀ b2, blockStep nodes edges b b2 → b2 ∈ reachable)) :
    ∀ b ∈ bfsLoop nodes edges queue reachable, ∀ b2,
      blockStep nodes edges b b2 → b2 ∈ bfsLoop nodes edges queue reachable := by
  induction queue, reachable using bfsLoop.induct nodes edges with
  | case1 reachable =>
    intro b hb b2 hstep
    rw [bfsLoop] at hb ⊢
    rcases hinv b hb with ⟨id, hidm, _⟩ | hclosed
    · simp at hidm
    · exact hclosed b2 hstep
  | case2 currentId rest reachable pr =>
    rename_i ih
    rw [bfsLoop]
    apply ih
    intro b hb
    by_cases hbold : b ∈ reachable
    · rcases hinv b hbold with ⟨id, hidm, hidblk⟩ | hclosed
      · rcases List.mem_cons.mp hidm with heq | hidm2
        · -- the dequeued id is the representative of b: b is closed after this step
          subst heq
          right
          intro b2 hstep
          rcases nodeIdToBlock_spec nodes id b hidblk with ⟨m, hm, hmid, hmblk⟩
          rcases hstep with ⟨e, he, n, hn, n2, hn2, hnid, hn2id, hnblk, hn2blk⟩
          have hmn : m = n := block_inj nodes hblk m n hm hn (hmblk.trans hnblk.symm)
          subst hmn
          have hesrc : e.source = id := hnid ▸ hmid
          have hout : e ∈ outgoingEdges edges id := by
            simp only [outgoingEdges, List.mem_filter]
            exact ⟨he, by simp [hesrc]⟩
          have htgt : nodeIdToBlock nodes e.target = some b2 := by
            have := nodeIdToBlock_eq nodes hid n2 hn2
            rw [hn2id] at this
            rw [this, hn2blk]
          exact processEdges_closed _ _ _ _ hout _ htgt
        · left
          exact ⟨id, List.mem_append_left _ hidm2, hidblk⟩
      · right
        intro b2 hstep
        exact processEdges_subset _ _ _ (hclosed b2 hstep)
    · left
      rcases processEdges_new_pushed _ _ _ _ hb hbold with ⟨id2, hid2, h2⟩
      exact ⟨id2, List.mem_append_right _ hid2, h2⟩

/-- The BFS of `computeReachableBlocks` computes exactly the
specification-level reachability, for well-formed node lists (distinct ids,
one node per block). -/
theorem computeReachableBlocks_iff (nodes : List MirNode) (edges : List MirEdge)
    (hid : (nodes.map (fun n => n.id)).Nodup)
    (hblk : (nodes.map (fun n => n.block)).Nodup) (b : Nat) :
    b ∈ computeReachableBlocks nodes edges ↔ blockReachable nodes edges b := by
  unfold computeReachableBlocks
  cases hf : nodes.find? (fun n => n.block == 0) with
  | none =>
    simp only [Finset.not_mem_empty, false_iff]
    intro hr
    rcases hr.1 with ⟨n0, hn0, hn0blk⟩
    have := List.find?_eq_none.mp hf n0 hn0
    simp [hn0blk] at this
  | some bb0Node =>
    have hbb0mem : bb0Node ∈ nodes := List.mem_of_find?_eq_some hf
    have hbb0blk : bb0Node.block = 0 := by simpa using List.find?_some hf
    constructor
    · intro hb
      have hsound := bfsLoop_sound nodes edges [bb0Node.id] {0}
        (by
          intro b2 hb2
          rcases Finset.mem_singleton.mp hb2 with rfl
          exact ⟨⟨bb0Node, hbb0mem, hbb0blk⟩, Relation.ReflTransGen.refl⟩)
        (by
          intro id hidm
          rcases List.mem_singleton.mp hidm with rfl
          exact ⟨bb0Node, hbb0mem, rfl, by simp [hbb0blk]⟩)
        b hb
      exact ⟨⟨bb0Node, hbb0mem, hbb0blk⟩, hsound.1, hsound.2⟩
    · rintro ⟨-, -, hrtg⟩
      have hclosed := bfsLoop_closed nodes edges hid hblk [bb0Node.id] {0}
        (by
          intro b2 hb2
          rcases Finset.mem_singleton.mp hb2 with rfl
          left
          refine ⟨bb0Node.id, List.mem_singleton_self _, ?_⟩
          have := nodeIdToBlock_eq nodes hid bb0Node hbb0mem
          rw [this, hbb0blk])
      have h0mem : (0 : Nat) ∈ bfsLoop nodes edges [bb0Node.id] {0} :=
        bfsLoop_mono nodes edges _ _ (Finset.mem_singleton_self 0)
      induction hrtg with
      | refl => exact h0mem
      | tail hstep hlast ih2 => exact hclosed _ ih2 _ hlast

/-- Step (1) on nodes: unless unwind edges are requested, drop blocks whose
terminator is a `"resume"`. -/
def stage1Nodes (nodes : List MirNode) (options : FilterOptions) : List MirNode :=
  if options.showUnwindEdges then nodes
  else nodes.filter (fun node => node.terminator.stmt ≠ "resume")

/-- Step (1) on edges: unless unwind edges are requested, drop edges labeled
`"unwind"`. -/
def stage1Edges (edges : List MirEdge) (options : FilterOptions) : List MirEdge :=
  if options.showUnwindEdges then edges
  else edges.filter (fun edge => edge.label ≠ "unwind")

/-- Step (2) on nodes: when a path restriction is active, keep only blocks on
the path. -/
def stage2Nodes (nodes : List MirNode) (options : FilterOptions) : List MirNode :=
  match options.path with
  | none => stage1Nodes nodes options
  | some p => (stage1Nodes nodes options).filter (fun node => p.contains node.block)

/-- Step (2) on edges: when a path restriction is active, keep only edges both
of whose endpoints (resolved by id against the *original* node list, as the
TS code does) lie on the path. -/
def stage2Edges (nodes : List MirNode) (edges : List MirEdge)
    (options : FilterOptions) : List MirEdge :=
  match options.path with
  | none => stage1Edges edges options
  | some p =>
    (stage1Edges edges options).filter (fun edge =>
      match nodes.find? (fun n => n.id == edge.source),
            nodes.find? (fun n => n.id == edge.target) with
      | some sourceNode, some targetNode =>
        p.contains sourceNode.block && p.contains targetNode.block
      | _, _ => false)

/-- Step (3): drop every stage-(1)-(2) node whose block the BFS did not
reach. -/
def stage3Nodes (nodes : List MirNode) (edges : List MirEdge)
    (options : FilterOptions) : List MirNode :=
  (stage2Nodes nodes options).filter (fun node =>
    decide (node.block ∈
      computeReachableBlocks (stage2Nodes nodes options) (stage2Edges nodes edges options)))

/-- Step (4): drop every stage-(1)-(2) edge one of whose endpoints no longer
resolves to a surviving node. -/
def stage4Edges (nodes : List MirNode) (edges : List MirEdge)
    (options : FilterOptions) : List MirEdge :=
  (stage2Edges nodes edges options).filter (fun edge =>
    ((stage3Nodes nodes edges options).find? (fun n => n.id == edge.source)).isSome &&
    ((stage3Nodes nodes edges options).find? (fun n => n.id == edge.target)).isSome)

/-- `filterNodesAndEdges` (mir_graph.ts): the fixed four-step pipeline —
unwind filtering, path filtering, reachability filtering of nodes, then
dropping edges with a dropped endpoint. -/
def filterNodesAndEdges (nodes : List MirNode) (edges : List MirEdge)
    (options : FilterOptions) : List MirNode × List MirEdge :=
  (stage3Nodes nodes edges options, stage4Edges nodes edges options)

theorem stage1Nodes_sublist (nodes : List MirNode) (options : FilterOptions) :
    (stage1Nodes nodes options).Sublist nodes := by
  unfold stage1Nodes
  split
  · exact List.Sublist.refl _
  · exact List.filter_sublist _

theorem stage2Nodes_sublist (nodes : List MirNode) (options : FilterOptions) :
    (stage2Nodes nodes options).Sublist nodes := by
  unfold stage2Nodes
  split
  · exact stage1Nodes_sublist nodes options
  · exact (List.filter_sublist _).trans (stage1Nodes_sublist nodes options)

theorem stage3Nodes_sublist (nodes : List MirNode) (edges : List MirEdge)
    (options : FilterOptions) :
    (stage3Nodes nodes edges options).Sublist (stage2Nodes nodes options) :=
  List.filter_sublist _

theorem find?_isSome_iff {α : Type} (l : List α) (p : α → Bool) :
    (l.find? p).isSome = true ↔ ∃ x ∈ l, p x = true := by
  constructor
  · intro h
    cases hf : l.find? p with
    | none => rw [hf] at h; simp at h
    | some x => exact ⟨x, List.mem_of_find?_eq_some hf, List.find?_some hf⟩
  · rintro ⟨x, hx, hp⟩
    cases hf : l.find? p with
    | none => exact absurd hp (by simpa using List.find?_eq_none.mp hf x hx)
    | some y => simp

theorem mem_stage3Nodes (nodes : List MirNode) (edges : List MirEdge)
    (options : FilterOptions) (n : MirNode) :
    n ∈ stage3Nodes nodes edges options ↔
      n ∈ stage2Nodes nodes options ∧
        n.block ∈ computeReachableBlocks (stage2Nodes nodes options)
          (stage2Edges nodes edges options) := by
  simp [stage3Nodes, List.mem_filter]

theorem mem_stage4Edges (nodes : List MirNode) (edges : List MirEdge)
    (options : FilterOptions) (e : MirEdge) :
    e ∈ stage4Edges nodes edges options ↔
      e ∈ stage2Edges nodes edges options ∧
        (∃ n ∈ stage3Nodes nodes edges options, n.id = e.source) ∧
        (∃ n ∈ stage3Nodes nodes edges options, n.id = e.target) := by
  simp [stage4Edges, List.mem_filter, find?_isSome_iff]

/-- The first half of claim C4's characterization: a node survives the full
filter iff it survives the unwind/path stages and its block is
specification-reachable from block 0 over the stage-(1)-(2) graph. -/
theorem filterNodesAndEdges_node_mem (nodes : List MirNode) (edges : List MirEdge)
    (options : FilterOptions)
    (hid : (nodes.map (fun n => n.id)).Nodup)
    (hblk : (nodes.map (fun n => n.block)).Nodup) (n : MirNode) :
    n ∈ (filterNodesAndEdges nodes edges options).1 ↔
      n ∈ stage2Nodes nodes options ∧
        blockReachable (stage2Nodes nodes options) (stage2Edges nodes edges options)
          n.block := by
  have hid2 : ((stage2Nodes nodes options).map (fun n => n.id)).Nodup :=
    hid.sublist ((stage2Nodes_sublist nodes options).map _)
  have hblk2 : ((stage2Nodes nodes options).map (fun n => n.block)).Nodup :=
    hblk.sublist ((stage2Nodes_sublist nodes options).map _)
  rw [show (filterNodesAndEdges nodes edges options).1 = stage3Nodes nodes edges options
    from rfl, mem_stage3Nodes, computeReachableBlocks_iff _ _ hid2 hblk2]

/-- The second half of claim C4's characterization: an edge survives the full
filter iff it survives the unwind/path stages and both its endpoints resolve
to surviving nodes. -/
theorem filterNodesAndEdges_edge_mem (nodes : List MirNode) (edges : List MirEdge)
    (options : FilterOptions) (e : MirEdge) :
    e ∈ (filterNodesAndEdges nodes edges options).2 ↔
      e ∈ stage2Edges nodes edges options ∧
        (∃ n ∈ (filterNodesAndEdges nodes edges options).1, n.id = e.source) ∧
        (∃ n ∈ (filterNodesAndEdges nodes edges options).1, n.id = e.target) :=
  mem_stage4Edges nodes edges options e

theorem stage2Nodes_subset_stage1 (nodes : List MirNode) (options : FilterOptions) :
    ∀ n ∈ stage2Nodes nodes options, n ∈ stage1Nodes nodes options := by
  intro n hn
  unfold stage2Nodes at hn
  cases hp : options.path with
  | none => rw [hp] at hn; exact hn
  | some p =>
    rw [hp] at hn
    exact (List.mem_filter.mp hn).1

theorem stage2Edges_subset_stage1 (nodes : List MirNode) (edges : List MirEdge)
    (options : FilterOptions) :
    ∀ e ∈ stage2Edges nodes edges options, e ∈ stage1Edges edges options := by
  intro e he
  unfold stage2Edges at he
  cases hp : options.path with
  | none => rw [hp] at he; exact he
  | some p =>
    rw [hp] at he
    exact (List.mem_filter.mp he).1

/-- Stage (1) on nodes is a no-op on the output of the full filter. -/
theorem stage1Nodes_out (nodes : List MirNode) (edges : List MirEdge)
    (options : FilterOptions) :
    stage1Nodes (stage3Nodes nodes edges options) options = stage3Nodes nodes edges options := by
  unfold stage1Nodes
  cases hu : options.showUnwindEdges with
  | true => simp
  | false =>
    simp only [Bool.false_eq_true, if_neg, not_false_iff]
    apply List.filter_eq_self.mpr
    intro n hn
    have h1 : n ∈ stage1Nodes nodes options :=
      stage2Nodes_subset_stage1 nodes options n
        ((mem_stage3Nodes nodes edges options n).mp hn).1
    unfold stage1Nodes at h1
    rw [hu, if_neg (by simp)] at h1
    exact (List.mem_filter.mp h1).2

/-- Stage (1) on edges is a no-op on the output of the full filter. -/
theorem stage1Edges_out (nodes : List MirNode) (edges : List MirEdge)
    (options : FilterOptions) :
    stage1Edges (stage4Edges nodes edges options) options = stage4Edges nodes edges options := by
  unfold stage1Edges
  cases hu : options.showUnwindEdges with
  | true => simp
  | false =>
    simp only [Bool.false_eq_true, if_neg, not_false_iff]
    apply List.filter_eq_self.mpr
    intro e he
    have h1 : e ∈ stage1Edges edges options :=
      stage2Edges_subset_stage1 nodes edges options e
        ((mem_stage4Edges nodes edges options e).mp he).1
    unfold stage1Edges at h1
    rw [hu, if_neg (by simp)] at h1
    exact (List.mem_filter.mp h1).2

/-- Stage (2) on nodes is a no-op on the output of the full filter. -/
theorem stage2Nodes_out (nodes : List MirNode) (edges : List MirEdge)
    (options : FilterOptions) :
    stage2Nodes (stage3Nodes nodes edges options) options = stage3Nodes nodes edges options := by
  unfold stage2Nodes
  cases hp : options.path with
  | none => exact stage1Nodes_out nodes edges options
  | some p =>
    rw [stage1Nodes_out nodes edges options]
    apply List.filter_eq_self.mpr
    intro n hn
    have h2 : n ∈ stage2Nodes nodes options :=
      ((mem_stage3Nodes nodes edges options n).mp hn).1
    unfold stage2Nodes at h2
    rw [hp] at h2
    exact (List.mem_filter.mp h2).2

/-- Stage (2) on edges is a no-op on the output of the full filter: an edge
that survived step (4) resolves both endpoints within the surviving nodes,
whose blocks all lie on the path. -/
theorem stage2Edges_out (nodes : List MirNode) (edges : List MirEdge)
    (options : FilterOptions) :
    stage2Edges (stage3Nodes nodes edges options) (stage4Edges nodes edges options) options =
      stage4Edges nodes edges options := by
  unfold stage2Edges
  cases hp : options.path with
  | none => exact stage1Edges_out nodes edges options
  | some p =>
    rw [stage1Edges_out nodes edges options]
    apply List.filter_eq_self.mpr
    intro e he
    rcases (mem_stage4Edges nodes edges options e).mp he with ⟨he2, ⟨ns, hns, hns2⟩, ⟨nt, hnt, hnt2⟩⟩
    have hsfind : ((stage3Nodes nodes edges options).find? (fun n => n.id == e.source)).isSome :=
      (find?_isSome_iff _ _).mpr ⟨ns, hns, by simp [hns2]⟩
    have htfind : ((stage3Nodes nodes edges options).find? (fun n => n.id == e.target)).isSome :=
      (find?_isSome_iff _ _).mpr ⟨nt, hnt, by simp [hnt2]⟩
    rcases Option.isSome_iff_exists.mp hsfind with ⟨ms, hms⟩
    rcases Option.isSome_iff_exists.mp htfind with ⟨mt, hmt⟩
    rw [hms, hmt]
    have hblkmem : ∀ m : MirNode, m ∈ stage3Nodes nodes edges options →
        p.contains m.block = true := by
      intro m hm
      have h2 : m ∈ stage2Nodes nodes options :=
        ((mem_stage3Nodes nodes edges options m).mp hm).1
      unfold stage2Nodes at h2
      rw [hp] at h2
      exact (List.mem_filter.mp h2).2
    have hmss : ms ∈ stage3Nodes nodes edges options := List.mem_of_find?_eq_some hms
    have hmts : mt ∈ stage3Nodes nodes edges options := List.mem_of_find?_eq_some hmt
    simp only [Bool.and_eq_true]
    exact ⟨by simpa using hblkmem ms hmss, by simpa using hblkmem mt hmts⟩

/-- Transfer of specification reachability from the stage-(1)-(2) graph to
the fully filtered graph: a path from block 0 visits only reachable blocks,
so all of its nodes and edges survive. -/
theorem blockReachable_transfer (nodes : List MirNode) (edges : List MirEdge)
    (options : FilterOptions)
    (hid : (nodes.map (fun n => n.id)).Nodup)
    (hblk : (nodes.map (fun n => n.block)).Nodup) (b : Nat)
    (h : blockReachable (stage2Nodes nodes options) (stage2Edges nodes edges options) b) :
    blockReachable (stage3Nodes nodes edges options) (stage4Edges nodes edges options) b := by
  have hid2 : ((stage2Nodes nodes options).map (fun n => n.id)).Nodup :=
    hid.sublist ((stage2Nodes_sublist nodes options).map _)
  have hblk2 : ((stage2Nodes nodes options).map (fun n => n.block)).Nodup :=
    hblk.sublist ((stage2Nodes_sublist nodes options).map _)
  have hR : ∀ c, blockReachable (stage2Nodes nodes options)
      (stage2Edges nodes edges options) c →
      c ∈ computeReachableBlocks (stage2Nodes nodes options) (stage2Edges nodes edges options) :=
    fun c => (computeReachableBlocks_iff _ _ hid2 hblk2 c).mpr
  obtain ⟨⟨n0, hn0, hn0blk⟩, ⟨n, hn, hnblk⟩, hrtg⟩ := h
  have hn0R : n0 ∈ stage3Nodes nodes edges options := by
    rw [mem_stage3Nodes]
    refine ⟨hn0, ?_⟩
    rw [hn0blk]
    exact hR 0 ⟨⟨n0, hn0, hn0blk⟩, ⟨n0, hn0, hn0blk⟩, Relation.ReflTransGen.refl⟩
  have hnR : n ∈ stage3Nodes nodes edges options := by
    rw [mem_stage3Nodes]
    refine ⟨hn, ?_⟩
    rw [hnblk]
    exact hR b ⟨⟨n0, hn0, hn0blk⟩, ⟨n, hn, hnblk⟩, hrtg⟩
  refine ⟨⟨n0, hn0R, hn0blk⟩, ⟨n, hnR, hnblk⟩, ?_⟩
  clear hnblk hn hnR
  induction hrtg with
  | refl => exact Relation.ReflTransGen.refl
  | tail h1 h2 ih =>
    rename_i c b2
    obtain ⟨e, he, m, hm, m2, hm2, hmid, hm2id, hmblk, hm2blk⟩ := h2
    have hcR : c ∈ computeReachableBlocks (stage2Nodes nodes options)
        (stage2Edges nodes edges options) :=
      hR c ⟨⟨n0, hn0, hn0blk⟩, ⟨m, hm, hmblk⟩, h1⟩
    have hb2R : b2 ∈ computeReachableBlocks (stage2Nodes nodes options)
        (stage2Edges nodes edges options) :=
      hR b2 ⟨⟨n0, hn0, hn0blk⟩, ⟨m2, hm2, hm2blk⟩,
        h1.tail ⟨e, he, m, hm, m2, hm2, hmid, hm2id, hmblk, hm2blk⟩⟩
    have hm3 : m ∈ stage3Nodes nodes edges options :=
      (mem_stage3Nodes nodes edges options m).mpr ⟨hm, hmblk ▸ hcR⟩
    have hm23 : m2 ∈ stage3Nodes nodes edges options :=
      (mem_stage3Nodes nodes edges options m2).mpr ⟨hm2, hm2blk ▸ hb2R⟩
    have he4 : e ∈ stage4Edges nodes edges options :=
      (mem_stage4Edges nodes edges options e).mpr
        ⟨he, ⟨m, hm3, hmid⟩, ⟨m2, hm23, hm2id⟩⟩
    exact ih.tail ⟨e, he4, m, hm3, m2, hm23, hmid, hm2id, hmblk, hm2blk⟩

/-- Every block that survives the full filter is BFS-reachable within the
filtered graph itself. -/
theorem stage3Nodes_block_reachable (nodes : List MirNode) (edges : List MirEdge)
    (options : FilterOptions)
    (hid : (nodes.map (fun n => n.id)).Nodup)
    (hblk : (nodes.map (fun n => n.block)).Nodup) :
    ∀ n ∈ stage3Nodes nodes edges options,
      n.block ∈ computeReachableBlocks (stage3Nodes nodes edges options)
        (stage4Edges nodes edges options) := by
  intro n hn
  have hsub : (stage3Nodes nodes edges options).Sublist nodes :=
    (stage3Nodes_sublist nodes edges options).trans (stage2Nodes_sublist nodes options)
  have hid3 : ((stage3Nodes nodes edges options).map (fun n => n.id)).Nodup :=
    hid.sublist (hsub.map _)
  have hblk3 : ((stage3Nodes nodes edges options).map (fun n => n.block)).Nodup :=
    hblk.sublist (hsub.map _)
  have hid2 : ((stage2Nodes nodes options).map (fun n => n.id)).Nodup :=
    hid.sublist ((stage2Nodes_sublist nodes options).map _)
  have hblk2 : ((stage2Nodes nodes options).map (fun n => n.block)).Nodup :=
    hblk.sublist ((stage2Nodes_sublist nodes options).map _)
  rcases (mem_stage3Nodes nodes edges options n).mp hn with ⟨h2, hRmem⟩
  have hreach2 : blockReachable (stage2Nodes nodes options)
      (stage2Edges nodes edges options) n.block :=
    (computeReachableBlocks_iff _ _ hid2 hblk2 n.block).mp hRmem
  exact (computeReachableBlocks_iff _ _ hid3 hblk3 n.block).mpr
    (blockReachable_transfer nodes edges options hid hblk n.block hreach2)

/-- Stage (3) is a no-op on the output of the full filter. -/
theorem stage3Nodes_out (nodes : List MirNode) (edges : List MirEdge)
    (options : FilterOptions)
    (hid : (nodes.map (fun n => n.id)).Nodup)
    (hblk : (nodes.map (fun n => n.block)).Nodup) :
    stage3Nodes (stage3Nodes nodes edges options) (stage4Edges nodes edges options) options =
      stage3Nodes nodes edges options := by
  set A := stage3Nodes nodes edges options with hA
  set B := stage4Edges nodes edges options with hB
  have h1 : stage2Nodes A options = A := stage2Nodes_out nodes edges options
  have h2 : stage2Edges A B options = B := stage2Edges_out nodes edges options
  unfold stage3Nodes
  rw [h1, h2]
  apply List.filter_eq_self.mpr
  intro n hn
  simp only [decide_eq_true_eq]
  exact stage3Nodes_block_reachable nodes edges options hid hblk n hn

/-- Stage (4) is a no-op on the output of the full filter. -/
theorem stage4Edges_out (nodes : List MirNode) (edges : List MirEdge)
    (options : FilterOptions)
    (hid : (nodes.map (fun n => n.id)).Nodup)
    (hblk : (nodes.map (fun n => n.block)).Nodup) :
    stage4Edges (stage3Nodes nodes edges options) (stage4Edges nodes edges options) options =
      stage4Edges nodes edges options := by
  set A := stage3Nodes nodes edges options with hA
  set B := stage4Edges nodes edges options with hB
  have h2 : stage2Edges A B options = B := stage2Edges_out nodes edges options
  have h3 : stage3Nodes A B options = A := stage3Nodes_out nodes edges options hid hblk
  unfold stage4Edges
  rw [h2, h3]
  apply List.filter_eq_self.mpr
  intro e he
  rcases (mem_stage4Edges nodes edges options e).mp he with ⟨_, ⟨ns, hns, hns2⟩, ⟨nt, hnt, hnt2⟩⟩
  have hs : ((stage3Nodes nodes edges options).find? (fun n => n.id == e.source)).isSome :=
    (find?_isSome_iff _ _).mpr ⟨ns, hns, by simp [hns2]⟩
  have ht : ((stage3Nodes nodes edges options).find? (fun n => n.id == e.target)).isSome :=
    (find?_isSome_iff _ _).mpr ⟨nt, hnt, by simp [hnt2]⟩
  simp [hs, ht]

/-- The shared mutable state of an `Api` object, specialized to one payload
type: the `pcgDataCache` map plus a log of the underlying fetches issued
(`fetchJsonFile` calls), in order. -/
structure ApiState (Data : Type) where
  pcgDataCache : List (String × Data)
  fetchLog : List String

/-- The artifact path fetched by `getPcgFunctionData`. -/
def pcgDataPath (functionName : String) : String :=
  "data/" ++ functionName ++ "/pcg_data.json"

/-- The synchronous prefix of `getPcgFunctionData` (api.ts), up to its one
`await`: test the cache; on a hit return the entry (no fetch), on a miss
issue the underlying fetch and suspend.  The returned `none` means the call
is now awaiting the fetch. -/
def getPcgFunctionDataStart {Data : Type} (functionName : String)
    (s : ApiState Data) : ApiState Data × Option Data :=
  match s.pcgDataCache.lookup functionName with
  | some d => (s, some d)
  | none => ({ s with fetchLog := s.fetchLog ++ [pcgDataPath functionName] }, none)

/-- The continuation of `getPcgFunctionData` after its fetch resolves with
`d`: store the entry, then return `pcgDataCache.get(functionName)!`. -/
def getPcgFunctionDataResume {Data : Type} [Inhabited Data] (functionName : String)
    (d : Data) (s : ApiState Data) : ApiState Data × Data :=
  let s2 : ApiState Data := { s with pcgDataCache := (functionName, d) :: s.pcgDataCache }
  (s2, (s2.pcgDataCache.lookup functionName).get!)

/-- The event-loop trace of two lookups of the same key where the second is
issued before the first's fetch completes: call 1 starts (cache miss, fetch
issued), call 2 starts (cache still empty, fetch issued), fetch 1 resolves,
fetch 2 resolves.  Returns the final state and both callers' results. -/
def concurrentLookups {Data : Type} [Inhabited Data] (key : String) (d1 d2 : Data) :
    ApiState Data × Data × Data :=
  let s0 : ApiState Data := ⟨[], []⟩
  let r1 := getPcgFunctionDataStart key s0
  let r2 := getPcgFunctionDataStart key r1.1
  let c1 := getPcgFunctionDataResume key d1 r2.1
  let c2 := getPcgFunctionDataResume key d2 c1.1
  (c2.1, c1.2, c2.2)

/-- The event-loop trace of two sequential lookups of the same key: call 1
runs to completion (fetch issued and resolved), then call 2 starts and is
served from the cache. -/
def sequentialLookups {Data : Type} [Inhabited Data] (key : String) (d1 : Data) :
    ApiState Data × Data × Option Data :=
  let s0 : ApiState Data := ⟨[], []⟩
  let r1 := getPcgFunctionDataStart key s0
  let c1 := getPcgFunctionDataResume key d1 r1.1
  let r2 := getPcgFunctionDataStart key c1.1
  (r2.1, c1.2, r2.2)

/-- The engine state read by the per-point fetch effect: the current
selection (as an opaque key) and the last-applied per-point payload. -/
structure EngineState (Data : Type) where
  currentPoint : Nat
  pcgProgramPointData : Option Data

/-- A navigation change: the selection moves to `k` (and the effect for `k`
issues a fetch whose completion is modeled by `fetchCompletes`). -/
def selectPoint {Data : Type} (st : EngineState Data) (k : Nat) : EngineState Data :=
  { st with currentPoint := k }

/-- The completion handler of `fetchPcgStmtVisualizationData` (App.tsx): the
response for originating selection `k` is applied to state unconditionally —
the code performs no comparison between `k` and the current selection. -/
def fetchCompletes {Data : Type} (env : Nat → Data) (st : EngineState Data)
    (k : Nat) : EngineState Data :=
  { st with pcgProgramPointData := some (env k) }

/-- A guarded completion handler, as §5 of the spec prescribes: apply the
response only when its originating key still equals the current selection.
Stated for comparison with `fetchCompletes`; the source implements only the
unguarded version. -/
def fetchCompletesGuarded {Data : Type} (env : Nat → Data) (st : EngineState Data)
    (k : Nat) : EngineState Data :=
  if k = st.currentPoint then { st with pcgProgramPointData := some (env k) } else st

/-- A storage entry of the versioned durable store (zipCache/storage.ts):
the stored string and the timestamp of the last access, in milliseconds. -/
structure StorageEntry where
  value : String
  lastAccessed : Int
  deriving DecidableEq, Repr

/-- The browser `localStorage`, reduced to the entries this store reads:
an association list from full key to (parsed) entry. -/
def LocalStore : Type := List (String × StorageEntry)

def lsGet (ls : LocalStore) (k : String) : Option StorageEntry :=
  (ls.find? (fun p => p.1 == k)).map (fun p => p.2)

def lsSet (ls : LocalStore) (k : String) (v : StorageEntry) : LocalStore :=
  (k, v) :: ls.filter (fun p => p.1 ≠ k)

def lsRemove (ls : LocalStore) (k : String) : LocalStore :=
  ls.filter (fun p => p.1 ≠ k)

/-- `VersionedStorage` (part of the persistence layer): a version prefix and
a time-to-live in milliseconds. -/
structure VersionedStorage where
  pfx : String
  ttlMs : Int
  deriving DecidableEq, Repr

/-- The constructor `new VersionedStorage(version, ttlHours = 3)`. -/
def mkVersionedStorage (version : String) (ttlHours : Int) : VersionedStorage :=
  ⟨version ++ ":", ttlHours * 60 * 60 * 1000⟩

def VersionedStorage.getKey (vs : VersionedStorage) (key : String) : String :=
  vs.pfx ++ key

/-- `isExpired`: strictly more than `ttlMs` milliseconds since last access. -/
def VersionedStorage.isExpired (vs : VersionedStorage) (now : Int)
    (entry : StorageEntry) : Bool :=
  now - entry.lastAccessed > vs.ttlMs

/-- `getEntry`: read the raw entry; an expired entry is removed and treated
as absent.  `now` stands for `Date.now()`. -/
def VersionedStorage.getEntry (vs : VersionedStorage) (ls : LocalStore)
    (key : String) (now : Int) : Option StorageEntry × LocalStore :=
  match lsGet ls (vs.getKey key) with
  | none => (none, ls)
  | some entry =>
    if vs.isExpired now entry then (none, lsRemove ls (vs.getKey key))
    else (some entry, ls)

/-- `getItem`: a successful read refreshes the entry's `lastAccessed`
timestamp to the read time (`updateAccessTime`). -/
def VersionedStorage.getItem (vs : VersionedStorage) (ls : LocalStore)
    (key : String) (now : Int) : Option String × LocalStore :=
  match vs.getEntry ls key now with
  | (none, ls2) => (none, ls2)
  | (some entry, ls2) =>
    (some entry.value, lsSet ls2 (vs.getKey key) { entry with lastAccessed := now })

/-- `setItem`/`setEntry`: store the value with the current time as its
access timestamp. -/
def VersionedStorage.setItem (vs : VersionedStorage) (ls : LocalStore)
    (key value : String) (now : Int) : LocalStore :=
  lsSet ls (vs.getKey key) ⟨value, now⟩

/-- One branch choice of the out-of-band edge metadata consumed by the PCG
graph's hover handler (`from` is a reserved word in Lean, hence `from_`). -/
structure BranchChoice where
  from_ : String
  chosen : List String
  deriving DecidableEq, Repr

/-- JS `String.prototype.replace` with a string pattern, over character
lists: replace the *first* occurrence of `pat` only. -/
def replaceFirstChars (pat repl : List Char) : List Char → List Char
  | [] => []
  | c :: cs =>
    if pat.isPrefixOf (c :: cs) then repl ++ (c :: cs).drop pat.length
    else c :: replaceFirstChars pat repl cs

/-- JS `String.prototype.replace` with a string pattern: replace the *first*
occurrence only (e.g. `"bb0".replace("bb","") = "0"`). -/
def replaceFirst (s pat repl : String) : String :=
  String.mk (replaceFirstChars pat.data repl.data s.data)

/-- The `mouseenterHandler` of PcgGraph.tsx, highlight-set part: for every
branch choice with a truthy `from` field, add one key
`` `${from.replace('bb','')}-${to.replace('bb','')}` `` per chosen
successor; the result is a JS `Set`. -/
def extractMirEdges (branch_choices : List BranchChoice) : Finset String :=
  branch_choices.foldl
    (fun acc bc =>
      if bc.from_ ≠ "" then
        bc.chosen.foldl
          (fun acc2 toRef =>
            insert (replaceFirst bc.from_ "bb" "" ++ "-" ++ replaceFirst toRef "bb" "") acc2)
          acc
      else acc)
    ∅

/-- The `mouseleaveHandler` of PcgGraph.tsx emits the empty highlight set. -/
def mouseleaveHighlight : Finset String := (∅ : Finset String)

/-- `Api.getPaths` (pcg-bin api.ts): the fetch of `paths.json` wrapped in
`try`/`catch`; a failed fetch recovers to the empty list.  The fallible
fetch is abstracted as an `Except`. -/
def getPaths (fetchResult : Except String (List (List Nat))) : List (List Nat) :=
  match fetchResult with
  | .ok paths => paths
  | .error _ => []

/-- An assertion record (components/Assertions); its fields are irrelevant
to the recovery behavior and abstracted to its rendered text. -/
structure Assertion where
  text : String
  deriving DecidableEq, Repr

/-- `Api.getAssertions` (pcg-bin api.ts): same recovery as `getPaths`. -/
def getAssertions (fetchResult : Except String (List Assertion)) : List Assertion :=
  match fetchResult with
  | .ok assertions => assertions
  | .error _ => []

/-- The actions a program-point payload lists, in listing order: the flat
successor array, or the four canonical phases concatenated. -/
def listedActions : PcgProgramPointData → List PcgAction
  | .successor acts => acts
  | .stmt d => d.pre_operands ++ d.post_operands ++ d.pre_main ++ d.post_main

/-- An example includable action (kind `AddEdge`). -/
def exAction : PcgAction := ⟨⟨⟨"AddEdge", "x alias y"⟩⟩⟩

/-- An example excluded action (kind `MakePlaceOld`). -/
def exOldAction : PcgAction := ⟨⟨⟨"MakePlaceOld", "old(z)"⟩⟩⟩

/-- The statement payload of the C1 scenario: one action in `pre_operands`,
nothing elsewhere. -/
def exStmtData : EvalStmtData := ⟨[exAction], [], [], []⟩

/-- The iteration payload of the C1 scenario. -/
def exGraphs : StmtGraphs :=
  ⟨[⟨"init", "g0.dot"⟩, ⟨"pre_operands", "g1.dot"⟩, ⟨"post_operands", "g2.dot"⟩,
    ⟨"pre_main", "g3.dot"⟩, ⟨"post_main", "g4.dot"⟩]⟩

/-- Two example navigation items used by the stepping witnesses. -/
def exItems : List NavItem :=
  [.action "pre_operands" 0 exAction, .iteration "post_main" "g4.dot"]

/-- An example filtered block list: block 0 with two statements, block 1
with one statement. -/
def exFilteredNodes : List MirNode :=
  [⟨"bb0", 0, [⟨"s0"⟩, ⟨"s1"⟩], ⟨"goto"⟩⟩, ⟨"bb1", 1, [⟨"s2"⟩], ⟨"return"⟩⟩]

/-- The CFG of the spec's filtering scenario: blocks 0, 1, 2 where block 2's
terminator is a `"resume"`. -/
def exMirNodes : List MirNode :=
  [⟨"bb0", 0, [], ⟨"goto"⟩⟩, ⟨"bb1", 1, [], ⟨"return"⟩⟩, ⟨"bb2", 2, [], ⟨"resume"⟩⟩]

/-- Edges `0→1` (label `"true"`) and `0→2` (label `"unwind"`). -/
def exMirEdges : List MirEdge :=
  [⟨"bb0", "bb1", "true"⟩, ⟨"bb0", "bb2", "unwind"⟩]

/-- Filter options with unwind edges hidden and no path restriction. -/
def exOptions : FilterOptions := ⟨false, none⟩

/-- `export const storage = new VersionedStorage(LOCALSTORAGE_VERSION)` with
`LOCALSTORAGE_VERSION = "v3"` and the default 3-hour time-to-live. -/
def storageV3 : VersionedStorage := mkVersionedStorage "v3" 3

/-- The event-loop trace used to refute the stale-result guard of claim C6:
selection moves from point 0 to point 1; the fetch for 1 completes first and
then the *stale* fetch for 0 completes. -/
def exStaleTrace : EngineState Nat :=
  fetchCompletes (fun k => k + 100)
    (fetchCompletes (fun k => k + 100)
      (selectPoint (selectPoint ⟨0, none⟩ 0) 1) 1) 0

end PcgViz

namespace PcgViz

theorem actionNavItems_append (phase : String) (acts : List PcgAction) :
    ∀ it ∈ actionNavItems phase acts, ∃ i a, it = NavItem.action phase i a := by
  intro it hit
  unfold actionNavItems at hit
  rcases List.mem_filterMap.mp hit with ⟨⟨i, a⟩, _, hf⟩
  by_cases hk : includedKind a = true
  · rw [if_pos hk] at hf
    exact ⟨i, a, (Option.some_injective _ hf).symm⟩
  · rw [if_neg hk] at hf
    simp at hf

theorem flatMap_pre_phases (d : EvalStmtData) (pre : List PhaseGraph)
    (hpre : ∀ pg ∈ pre, isEvalStmtPhaseName pg.phase = false) :
    pre.flatMap (navItemsForPhaseEntry d) =
      pre.map (fun pg => NavItem.iteration pg.phase pg.filename) := by
  induction pre with
  | nil => rfl
  | cons pg rest ih =>
    rw [List.flatMap_cons, List.map_cons,
      ih (fun pg2 h2 => hpre pg2 (List.mem_cons_of_mem _ h2))]
    unfold navItemsForPhaseEntry
    rw [if_neg (by simp [hpre pg (List.mem_cons_self _ _)])]
    rfl

/-- C1: For every statement payload whose iteration phases are some
non-canonical prefix followed by the four canonical phases, the built
NavigationItem sequence is the prefix phases in encounter order, then for
each canonical phase its (listed) actions in order followed by the phase
marker itself. -/
theorem buildNavigationItems_canonical_order (d : EvalStmtData) (pre : List PhaseGraph)
    (f1 f2 f3 f4 : String)
    (hpre : ∀ pg ∈ pre, isEvalStmtPhaseName pg.phase = false) :
    buildNavigationItems (.stmt d)
      (some (StmtGraphs.mk (pre ++ [PhaseGraph.mk "pre_operands" f1,
        PhaseGraph.mk "post_operands" f2, PhaseGraph.mk "pre_main" f3,
        PhaseGraph.mk "post_main" f4]))) =
      pre.map (fun pg => NavItem.iteration pg.phase pg.filename)
        ++ (actionNavItems "pre_operands" d.pre_operands
              ++ [NavItem.iteration "pre_operands" f1])
        ++ (actionNavItems "post_operands" d.post_operands
              ++ [NavItem.iteration "post_operands" f2])
        ++ (actionNavItems "pre_main" d.pre_main
              ++ [NavItem.iteration "pre_main" f3])
        ++ (actionNavItems "post_main" d.post_main
              ++ [NavItem.iteration "post_main" f4]) := by
  show (pre ++ [PhaseGraph.mk "pre_operands" f1, PhaseGraph.mk "post_operands" f2,
      PhaseGraph.mk "pre_main" f3, PhaseGraph.mk "post_main" f4]).flatMap
      (navItemsForPhaseEntry d) = _
  rw [List.flatMap_append, flatMap_pre_phases d pre hpre]
  simp [navItemsForPhaseEntry, isEvalStmtPhaseName, actionsFor]

/-- C1 witness: the scenario of the claim — phases
`["init","pre_operands","post_operands","pre_main","post_main"]` with one
action in `pre_operands` build to
`[init, action@pre_operands[0], pre_operands, post_operands, pre_main,
post_main]`. -/
theorem buildNavigationItems_canonical_order_witness :
    (∀ pg ∈ [PhaseGraph.mk "init" "g0.dot"], isEvalStmtPhaseName pg.phase = false) ∧
      buildNavigationItems (.stmt exStmtData) (some exGraphs) =
        [NavItem.iteration "init" "g0.dot",
         NavItem.action "pre_operands" 0 exAction,
         NavItem.iteration "pre_operands" "g1.dot",
         NavItem.iteration "post_operands" "g2.dot",
         NavItem.iteration "pre_main" "g3.dot",
         NavItem.iteration "post_main" "g4.dot"] :=
  ⟨by decide,
    (buildNavigationItems_canonical_order exStmtData [PhaseGraph.mk "init" "g0.dot"]
      "g1.dot" "g2.dot" "g3.dot" "g4.dot" (by decide)).trans (by decide)⟩

/-- C2 (amended): stepping forward from the last item (or backward from the
first) signals exactly one boundary crossing and never wraps when the
corresponding callback is installed; the caller then advances to the next
statement (wrapping through the filtered block list) resetting the position
to the `"initial"` iteration, or retreats to the previous statement
resetting the position to the `"post_main"` iteration (not `"initial"`);
without a callback, stepping degrades to wrapping within the sequence. -/
theorem handleKeyDown_boundary (items : List NavItem) (spLast spFirst : NavigatorPoint)
    (nodes filteredNodes : List MirNode) (block stmtIdx : Nat) (nav : NavigatorPoint)
    (nd : MirNode) (i : Nat)
    (hne : items ≠ [])
    (hlast : findCurrentIndex items (some spLast) = some (items.length - 1))
    (hfirst : findCurrentIndex items (some spFirst) = some 0)
    (hnode : nodes.find? (fun n => n.block == block) = some nd)
    (hidx : filteredNodes.findIdx? (fun n => n.block == block) = some i) :
    (∀ hp, handleKeyDown .a items (some spLast) true hp = .advanceNext) ∧
    (∀ hp, handleKeyDown .a items (some spLast) false hp =
      selectItem (items.getD 0 default)) ∧
    (∀ ha, handleKeyDown .q items (some spFirst) ha true = .goToPrevious) ∧
    (∀ ha, handleKeyDown .q items (some spFirst) ha false =
      selectItem (items.getD (items.length - 1) default)) ∧
    (stmtIdx + 1 ≤ nd.stmts.length →
      onAdvanceToNextStatement nodes filteredNodes (.stmt block stmtIdx nav) =
        .stmt block (stmtIdx + 1) (.iteration "initial")) ∧
    (nd.stmts.length < stmtIdx + 1 →
      onAdvanceToNextStatement nodes filteredNodes (.stmt block stmtIdx nav) =
        .stmt (filteredNodes.getD ((i + 1) % filteredNodes.length) default).block 0
          (.iteration "initial")) ∧
    (0 < stmtIdx →
      onGoToPreviousStatement filteredNodes (.stmt block stmtIdx nav) =
        .stmt block (stmtIdx - 1) (.iteration "post_main")) ∧
    (stmtIdx = 0 →
      onGoToPreviousStatement filteredNodes (.stmt block stmtIdx nav) =
        .stmt
          (filteredNodes.getD
            (((i : Int) - 1 + filteredNodes.length) % filteredNodes.length).toNat
            default).block
          (filteredNodes.getD
            (((i : Int) - 1 + filteredNodes.length) % filteredNodes.length).toNat
            default).stmts.length
          (.iteration "post_main")) := by
  have hlen : items.length ≠ 0 := by simpa using hne
  refine ⟨?_, ?_, ?_, ?_, ?_, ?_, ?_, ?_⟩
  · intro hp
    unfold handleKeyDown
    rw [if_neg hlen, hlast]
    simp
  · intro hp
    unfold handleKeyDown
    rw [if_neg hlen, hlast]
    simp
  · intro ha
    unfold handleKeyDown
    rw [if_neg hlen, hfirst]
    simp
  · intro ha
    unfold handleKeyDown
    rw [if_neg hlen, hfirst]
    simp
  · intro hle
    simp only [onAdvanceToNextStatement, hnode, if_pos hle]
  · intro hgt
    have hnle : ¬(stmtIdx + 1 ≤ nd.stmts.length) := by omega
    simp only [onAdvanceToNextStatement, hnode, if_neg hnle, hidx]
  · intro hpos
    simp only [onGoToPreviousStatement, if_pos hpos]
  · intro hz
    subst hz
    simp only [onGoToPreviousStatement, gt_iff_lt, lt_self_iff_false, if_neg,
      not_false_iff, hidx]

/-- C2 witness: concrete boundary steps — forward from the last of two items
signals `advanceNext`; backward from the first signals `goToPrevious`; the
callers land on the expected statements with `"initial"` (forward) and
`"post_main"` (backward) positions; without callbacks, stepping wraps. -/
theorem handleKeyDown_boundary_witness :
    (exItems ≠ [] ∧
      findCurrentIndex exItems (some (.iteration "post_main")) = some (exItems.length - 1) ∧
      findCurrentIndex exItems (some (.action "pre_operands" 0)) = some 0 ∧
      exFilteredNodes.find? (fun n => n.block == 0) = some (exFilteredNodes.getD 0 default) ∧
      exFilteredNodes.findIdx? (fun n => n.block == 0) = some 0) ∧
    handleKeyDown .a exItems (some (.iteration "post_main")) true false = .advanceNext ∧
    handleKeyDown .q exItems (some (.action "pre_operands" 0)) false true = .goToPrevious ∧
    handleKeyDown .a exItems (some (.iteration "post_main")) false false =
      selectItem (exItems.getD 0 default) ∧
    onAdvanceToNextStatement exFilteredNodes exFilteredNodes (.stmt 0 0 (.iteration "init")) =
      .stmt 0 1 (.iteration "initial") ∧
    onGoToPreviousStatement exFilteredNodes (.stmt 0 0 (.iteration "init")) =
      .stmt 1 1 (.iteration "post_main") := by
  have h := handleKeyDown_boundary exItems (.iteration "post_main") (.action "pre_operands" 0)
    exFilteredNodes exFilteredNodes 0 0 (.iteration "init") (exFilteredNodes.getD 0 default) 0
    (by decide) (by decide) (by decide) (by decide) (by decide)
  refine ⟨⟨by decide, by decide, by decide, by decide, by decide⟩, h.1 false, h.2.2.1 false,
    (h.2.1 false).trans rfl, ?_, ?_⟩
  · exact (h.2.2.2.2.1 (by decide)).trans (by decide)
  · exact (h.2.2.2.2.2.2.2 rfl).trans (by decide)

/-- C2 counterexample: retreating across the statement boundary resets the
navigator position to the `"post_main"` iteration, not to the sentinel
`"initial"` iteration the claim states. -/
theorem goToPreviousStatement_not_initial :
    onGoToPreviousStatement exFilteredNodes (.stmt 1 0 (.iteration "init")) =
      .stmt 0 2 (.iteration "post_main") ∧
    (NavigatorPoint.iteration "post_main") ≠ (NavigatorPoint.iteration "initial") := by
  exact ⟨by decide, by decide⟩

/-- C3 counterexample: two concurrent lookups of the same function key, the
second issued before the first's fetch completes, issue *two* underlying
fetches — the cache stores only completed payloads, so the in-flight fetch
is invisible to the second caller. -/
theorem getPcgFunctionData_concurrent_two_fetches :
    (concurrentLookups "main" (7 : Nat) 8).1.fetchLog.length = 2 ∧
    ¬((concurrentLookups "main" (7 : Nat) 8).1.fetchLog.length = 1) := by
  exact ⟨rfl, by decide⟩

/-- C3 (amended): `getPcgFunctionData` deduplicates fetches only across
*completed* lookups.  Two concurrent lookups of the same key (the second
issued before the first completes) each issue an underlying fetch, and the
second fetch's payload overwrites the first; a lookup issued after a fetch
has completed is served from the cache with no further fetch. -/
theorem getPcgFunctionData_fetch_behavior {Data : Type} [Inhabited Data]
    (key : String) (d1 d2 : Data) :
    (concurrentLookups key d1 d2).1.fetchLog = [pcgDataPath key, pcgDataPath key] ∧
    (concurrentLookups key d1 d2).2.1 = d1 ∧
    (concurrentLookups key d1 d2).2.2 = d2 ∧
    (concurrentLookups key d1 d2).1.pcgDataCache.lookup key = some d2 ∧
    (sequentialLookups key d1).1.fetchLog = [pcgDataPath key] ∧
    (sequentialLookups key d1).2.1 = d1 ∧
    (sequentialLookups key d1).2.2 = some d1 := by
  refine ⟨?_, ?_, ?_, ?_, ?_, ?_, ?_⟩ <;>
    simp [concurrentLookups, sequentialLookups, getPcgFunctionDataStart,
      getPcgFunctionDataResume, List.lookup]

/-- C6 counterexample: the selection moves from point 0 to point 1; the
fetch for 1 completes, then the stale fetch for 0 completes — and its
payload *is* applied, leaving point 0's data on screen while point 1 is
selected. -/
theorem staleFetch_result_applied :
    exStaleTrace.currentPoint = 1 ∧
    exStaleTrace.pcgProgramPointData = some 100 ∧
    some (100 : Nat) ≠ some ((fun k => k + 100) 1) := by
  exact ⟨rfl, rfl, by decide⟩

/-- C6 (amended): the per-point fetch effect applies every completed
response unconditionally — no comparison against the current selection is
made — so after any sequence of completions the stored payload is that of
the *last fetch to complete*, whatever the current selection; only the
guarded handler prescribed by the spec would discard a response whose
originating key no longer equals the selection. -/
theorem fetchCompletes_last_wins {Data : Type} (env : Nat → Data)
    (st : EngineState Data) (ks : List Nat) (klast : Nat) :
    (((ks ++ [klast]).foldl (fetchCompletes env) st).pcgProgramPointData =
      some (env klast)) ∧
    ((ks ++ [klast]).foldl (fetchCompletes env) st).currentPoint = st.currentPoint ∧
    (∀ k, k ≠ st.currentPoint → fetchCompletesGuarded env st k = st) := by
  refine ⟨?_, ?_, ?_⟩
  · rw [List.foldl_append]
    rfl
  · induction ks generalizing st with
    | nil => rfl
    | cons k rest ih =>
      rw [List.cons_append, List.foldl_cons]
      exact ih (fetchCompletes env st k)
  · intro k hk
    simp [fetchCompletesGuarded, hk]

/-- C7: for an entry stored at time `T` under the 3-hour time-to-live, a
read at `T+4h` returns absent and removes the entry; a read at `T+1h`
returns the stored value and resets the entry's last-access timestamp to the
read time; consequently a further read at `T+3.5h` (2.5h after the refresh,
but 3.5h after creation) still succeeds — expiry is measured from last
access, not creation. -/
theorem versionedStorage_ttl (key value : String) (T : Int) :
    (storageV3.getItem (storageV3.setItem [] key value T) key (T + 14400000)).1 = none ∧
    lsGet (storageV3.getItem (storageV3.setItem [] key value T) key (T + 14400000)).2
      (storageV3.getKey key) = none ∧
    (storageV3.getItem (storageV3.setItem [] key value T) key (T + 3600000)).1 =
      some value ∧
    lsGet (storageV3.getItem (storageV3.setItem [] key value T) key (T + 3600000)).2
      (storageV3.getKey key) = some ⟨value, T + 3600000⟩ ∧
    (storageV3.getItem
      (storageV3.getItem (storageV3.setItem [] key value T) key (T + 3600000)).2 key
      (T + 12600000)).1 = some value ∧
    (storageV3.getItem (storageV3.setItem [] key value T) key (T + 12600000)).1 = none := by
  have hls1 : storageV3.setItem [] key value T =
      [(storageV3.getKey key, ⟨value, T⟩)] := by
    simp [VersionedStorage.setItem, lsSet]
  have hexp4 : storageV3.isExpired (T + 14400000) ⟨value, T⟩ = true := by
    simp only [VersionedStorage.isExpired, storageV3, mkVersionedStorage,
      decide_eq_true_eq]
    omega
  have hexp1 : storageV3.isExpired (T + 3600000) ⟨value, T⟩ = false := by
    simp only [VersionedStorage.isExpired, storageV3, mkVersionedStorage,
      decide_eq_false_iff_not]
    omega
  have hexp35old : storageV3.isExpired (T + 12600000) ⟨value, T⟩ = true := by
    simp only [VersionedStorage.isExpired, storageV3, mkVersionedStorage,
      decide_eq_true_eq]
    omega
  have hexp35 : storageV3.isExpired (T + 12600000) ⟨value, T + 3600000⟩ = false := by
    simp only [VersionedStorage.isExpired, storageV3, mkVersionedStorage,
      decide_eq_false_iff_not]
    omega
  have hget1 : lsGet [(storageV3.getKey key, (⟨value, T⟩ : StorageEntry))]
      (storageV3.getKey key) = some ⟨value, T⟩ := by
    simp [lsGet]
  refine ⟨?_, ?_, ?_, ?_, ?_, ?_⟩
  · simp [hls1, VersionedStorage.getItem, VersionedStorage.getEntry, hget1, hexp4]
  · simp [hls1, VersionedStorage.getItem, VersionedStorage.getEntry, hget1, hexp4,
      lsRemove, lsGet]
  · simp [hls1, VersionedStorage.getItem, VersionedStorage.getEntry, hget1, hexp1]
  · simp [hls1, VersionedStorage.getItem, VersionedStorage.getEntry, hget1, hexp1,
      lsSet, lsGet]
  · simp [hls1, VersionedStorage.getItem, VersionedStorage.getEntry, hget1, hexp1,
      hexp35, lsSet, lsGet]
  · simp [hls1, VersionedStorage.getItem, VersionedStorage.getEntry, hget1, hexp35old]

theorem mem_chosen_fold (fromStr : String) (l : List String) (acc : Finset String)
    (s : String) :
    s ∈ l.foldl (fun acc2 toRef =>
        insert (replaceFirst fromStr "bb" "" ++ "-" ++ replaceFirst toRef "bb" "") acc2)
      acc ↔
      s ∈ acc ∨ ∃ t ∈ l,
        s = replaceFirst fromStr "bb" "" ++ "-" ++ replaceFirst t "bb" "" := by
  induction l generalizing acc with
  | nil => simp
  | cons t rest ih =>
    rw [List.foldl_cons, ih]
    simp only [Finset.mem_insert, List.mem_cons]
    constructor
    · rintro (⟨h1 | h1⟩ | ⟨t2, ht2, h2⟩)
      · exact Or.inr ⟨t, Or.inl rfl, h1⟩
      · exact Or.inl h1
      · exact Or.inr ⟨t2, Or.inr ht2, h2⟩
    · rintro (h1 | ⟨t2, (rfl | ht2), h2⟩)
      · exact Or.inl (Or.inr h1)
      · exact Or.inl (Or.inl h2)
      · exact Or.inr ⟨t2, ht2, h2⟩

theorem mem_extract_fold (choices : List BranchChoice) (acc : Finset String)
    (s : String) (h : ∀ bc ∈ choices, bc.from_ ≠ "") :
    s ∈ choices.foldl
        (fun acc bc =>
          if bc.from_ ≠ "" then
            bc.chosen.foldl
              (fun acc2 toRef =>
                insert (replaceFirst bc.from_ "bb" "" ++ "-" ++
                  replaceFirst toRef "bb" "") acc2)
              acc
          else acc)
        acc ↔
      s ∈ acc ∨ ∃ bc ∈ choices, ∃ t ∈ bc.chosen,
        s = replaceFirst bc.from_ "bb" "" ++ "-" ++ replaceFirst t "bb" "" := by
  induction choices generalizing acc with
  | nil => simp
  | cons bc rest ih =>
    rw [List.foldl_cons, if_pos (h bc (List.mem_cons_self _ _)),
      ih _ (fun bc2 h2 => h bc2 (List.mem_cons_of_mem _ h2)), mem_chosen_fold]
    simp only [List.mem_cons]
    constructor
    · rintro (⟨h1 | ⟨t, ht, h1⟩⟩ | ⟨bc2, hbc2, t2, ht2, h2⟩)
      · exact Or.inl h1
      · exact Or.inr ⟨bc, Or.inl rfl, t, ht, h1⟩
      · exact Or.inr ⟨bc2, Or.inr hbc2, t2, ht2, h2⟩
    · rintro (h1 | ⟨bc2, (rfl | hbc2), t2, ht2, h2⟩)
      · exact Or.inl (Or.inl h1)
      · exact Or.inl (Or.inr ⟨t2, ht2, h2⟩)
      · exact Or.inr ⟨bc2, hbc2, t2, ht2, h2⟩

/-- C8: the highlight set emitted on hover contains exactly one block-pair
key per `(from, chosen[i])` pair across all branch choices, and hover-exit
emits the empty set. -/
theorem highlightBridge_keys (choices : List BranchChoice)
    (h : ∀ bc ∈ choices, bc.from_ ≠ "") :
    (∀ s, s ∈ extractMirEdges choices ↔ ∃ bc ∈ choices, ∃ t ∈ bc.chosen,
      s = replaceFirst bc.from_ "bb" "" ++ "-" ++ replaceFirst t "bb" "") ∧
    mouseleaveHighlight = ∅ := by
  refine ⟨fun s => ?_, rfl⟩
  unfold extractMirEdges
  rw [mem_extract_fold choices ∅ s h]
  simp

/-- C8 witness: the scenario of the claim —
`branch_choices=[{from:"bb0",chosen:["bb1","bb2"]}]` yields exactly the key
set `{0-1, 0-2}`. -/
theorem highlightBridge_keys_witness :
    (∀ bc ∈ [BranchChoice.mk "bb0" ["bb1", "bb2"]], bc.from_ ≠ "") ∧
    "0-1" ∈ extractMirEdges [BranchChoice.mk "bb0" ["bb1", "bb2"]] ∧
    extractMirEdges [BranchChoice.mk "bb0" ["bb1", "bb2"]] = {"0-1", "0-2"} ∧
    mouseleaveHighlight = ∅ :=
  ⟨by decide,
    ((highlightBridge_keys [BranchChoice.mk "bb0" ["bb1", "bb2"]] (by decide)).1
      "0-1").mpr
      ⟨BranchChoice.mk "bb0" ["bb1", "bb2"], by decide, "bb1", by decide, by decide⟩,
    by decide, by decide⟩

/-- C9: a failed fetch of the paths or assertions artifact recovers locally
to the empty list rather than propagating the error; a successful fetch
returns the parsed contents. -/
theorem paths_assertions_recovery :
    (∀ err, getPaths (.error err) = []) ∧ (∀ v, getPaths (.ok v) = v) ∧
    (∀ err, getAssertions (.error err) = []) ∧ (∀ v, getAssertions (.ok v) = v) :=
  ⟨fun _ => rfl, fun _ => rfl, fun _ => rfl, fun _ => rfl⟩

/-- C4: for a well-formed CFG (distinct node ids, one node per block), the
filter applies the unwind stage, then the path stage, then drops exactly the
nodes whose block is not forward-reachable from block 0 over the surviving
graph, then drops exactly the edges with a dropped endpoint — so a node
survives iff it passed stages (1)–(2) and its block is reachable from block
0 post-filter, and an edge survives iff it passed stages (1)–(2) with both
endpoints surviving. -/
theorem filterNodesAndEdges_pipeline (nodes : List MirNode) (edges : List MirEdge)
    (options : FilterOptions)
    (hid : (nodes.map (fun n => n.id)).Nodup)
    (hblk : (nodes.map (fun n => n.block)).Nodup) :
    (∀ n, n ∈ (filterNodesAndEdges nodes edges options).1 ↔
      n ∈ stage2Nodes nodes options ∧
        blockReachable (stage2Nodes nodes options) (stage2Edges nodes edges options)
          n.block) ∧
    (∀ e, e ∈ (filterNodesAndEdges nodes edges options).2 ↔
      e ∈ stage2Edges nodes edges options ∧
        (∃ n ∈ (filterNodesAndEdges nodes edges options).1, n.id = e.source) ∧
        (∃ n ∈ (filterNodesAndEdges nodes edges options).1, n.id = e.target)) :=
  ⟨fun n => filterNodesAndEdges_node_mem nodes edges options hid hblk n,
    fun e => filterNodesAndEdges_edge_mem nodes edges options e⟩

/-- C4 witness: on the scenario CFG with unwind edges hidden, block 1
survives the filter because it is reachable from block 0 along the `"true"`
edge. -/
theorem filterNodesAndEdges_pipeline_witness :
    ((exMirNodes.map (fun n => n.id)).Nodup ∧
      (exMirNodes.map (fun n => n.block)).Nodup) ∧
    (MirNode.mk "bb1" 1 [] ⟨"return"⟩) ∈
      (filterNodesAndEdges exMirNodes exMirEdges exOptions).1 :=
  ⟨⟨by decide, by decide⟩,
    ((filterNodesAndEdges_pipeline exMirNodes exMirEdges exOptions
        (by decide) (by decide)).1 (MirNode.mk "bb1" 1 [] ⟨"return"⟩)).mpr
      ⟨by decide,
        ⟨MirNode.mk "bb0" 0 [] ⟨"goto"⟩, by decide, rfl⟩,
        ⟨MirNode.mk "bb1" 1 [] ⟨"return"⟩, by decide, rfl⟩,
        Relation.ReflTransGen.single
          ⟨MirEdge.mk "bb0" "bb1" "true", by decide,
            MirNode.mk "bb0" 0 [] ⟨"goto"⟩, by decide,
            MirNode.mk "bb1" 1 [] ⟨"return"⟩, by decide, rfl, rfl, rfl, rfl⟩⟩⟩

/-- C5: for a well-formed CFG (distinct node ids, one node per block),
`filterNodesAndEdges` is idempotent — applying it to its own output with the
same options returns that output unchanged. -/
theorem filterNodesAndEdges_idempotent (nodes : List MirNode) (edges : List MirEdge)
    (options : FilterOptions)
    (hid : (nodes.map (fun n => n.id)).Nodup)
    (hblk : (nodes.map (fun n => n.block)).Nodup) :
    filterNodesAndEdges (filterNodesAndEdges nodes edges options).1
        (filterNodesAndEdges nodes edges options).2 options =
      filterNodesAndEdges nodes edges options := by
  show (stage3Nodes (stage3Nodes nodes edges options) (stage4Edges nodes edges options)
          options,
        stage4Edges (stage3Nodes nodes edges options) (stage4Edges nodes edges options)
          options) =
      (stage3Nodes nodes edges options, stage4Edges nodes edges options)
  rw [stage3Nodes_out nodes edges options hid hblk,
    stage4Edges_out nodes edges options hid hblk]

/-- C5 witness: idempotence on the scenario CFG. -/
theorem filterNodesAndEdges_idempotent_witness :
    ((exMirNodes.map (fun n => n.id)).Nodup ∧
      (exMirNodes.map (fun n => n.block)).Nodup) ∧
    filterNodesAndEdges (filterNodesAndEdges exMirNodes exMirEdges exOptions).1
        (filterNodesAndEdges exMirNodes exMirEdges exOptions).2 exOptions =
      filterNodesAndEdges exMirNodes exMirEdges exOptions :=
  ⟨⟨by decide, by decide⟩,
    filterNodesAndEdges_idempotent exMirNodes exMirEdges exOptions
      (by decide) (by decide)⟩

theorem pushIncludedLines_eq (actLine : ActionKind → String) (acts : List PcgAction)
    (acc : List String) :
    pushIncludedLines actLine acts acc =
      acc ++ (acts.filter includedKind).map (fun a => actLine a.data.kind) := by
  induction acts generalizing acc with
  | nil => simp [pushIncludedLines]
  | cons a rest ih =>
    unfold pushIncludedLines at ih ⊢
    rw [List.foldl_cons]
    by_cases hk : includedKind a = true
    · rw [if_pos hk, ih, List.filter_cons_of_pos hk]
      simp
    · rw [if_neg hk, ih, List.filter_cons_of_neg (by simpa using hk)]

theorem mem_enumFrom_of_get? {α : Type} (l : List α) :
    ∀ (n i : Nat) (a : α), l.get? i = some a → (n + i, a) ∈ l.enumFrom n := by
  induction l with
  | nil => intro n i a h; simp at h
  | cons x xs ih =>
    intro n i a h
    cases i with
    | zero =>
      simp only [List.get?] at h
      injection h with h2
      subst h2
      simp [List.enumFrom]
    | succ i2 =>
      simp only [List.get?] at h
      have := ih (n + 1) i2 a h
      have harith : n + (i2 + 1) = n + 1 + i2 := by omega
      rw [harith]
      exact List.mem_cons_of_mem _ this

theorem mem_enum_of_get? {α : Type} (l : List α) (i : Nat) (a : α)
    (h : l.get? i = some a) : (i, a) ∈ l.enum := by
  have := mem_enumFrom_of_get? l 0 i a h
  simpa [List.enum] using this

theorem actionNavItems_kind (phase phase2 : String) (acts : List PcgAction)
    (i : Nat) (a : PcgAction)
    (h : NavItem.action phase2 i a ∈ actionNavItems phase acts) :
    includedKind a = true := by
  unfold actionNavItems at h
  rcases List.mem_filterMap.mp h with ⟨⟨j, b⟩, _, hf⟩
  by_cases hk : includedKind b = true
  · rw [if_pos hk] at hf
    rcases hf with hf
    injection hf with h1
    injection h1 with _ _ hba
    exact hba ▸ hk
  · rw [if_neg hk] at hf
    simp at hf

/-- C10: actions of kind `MakePlaceOld` or `LabelLifetimeProjection` are
excluded everywhere actions are listed — they never appear in the built
NavigationItem sequence, and the inline per-statement annotations are
exactly the other actions' lines in listing order (flat successor list, or
the four canonical phases in order); moreover every included action at index
`i` of a reported phase's list does appear as an item. -/
theorem excluded_action_kinds (actLine : ActionKind → String)
    (pcgData : PcgProgramPointData) (iterations : Option StmtGraphs)
    (m : List (Nat × PcgProgramPointData)) (stmtIndex : Nat)
    (pd : Nat × PcgProgramPointData)
    (hfind : m.find? (fun p => p.1 == stmtIndex) = some pd) :
    (∀ phase i a, NavItem.action phase i a ∈ buildNavigationItems pcgData iterations →
      a.data.kind.type ≠ "MakePlaceOld" ∧ a.data.kind.type ≠ "LabelLifetimeProjection") ∧
    getActionsForStmt actLine true (some m) stmtIndex =
      ((listedActions pd.2).filter includedKind).map (fun a => actLine a.data.kind) ∧
    (∀ (d : EvalStmtData) (gs : StmtGraphs) (pg : PhaseGraph) (i : Nat) (a : PcgAction),
      pg ∈ gs.at_phase → isEvalStmtPhaseName pg.phase = true →
      (actionsFor d pg.phase).get? i = some a → includedKind a = true →
      NavItem.action pg.phase i a ∈ buildNavigationItems (.stmt d) (some gs)) := by
  refine ⟨?_, ?_, ?_⟩
  · intro phase i a hmem
    have hk : includedKind a = true := by
      cases pcgData with
      | successor acts =>
        exact actionNavItems_kind "successor" phase acts i a hmem
      | stmt d =>
        cases iterations with
        | none => simp [buildNavigationItems] at hmem
        | some gs =>
          simp only [buildNavigationItems] at hmem
          rcases List.mem_flatMap.mp hmem with ⟨pg, _, hpg2⟩
          unfold navItemsForPhaseEntry at hpg2
          rcases List.mem_append.mp hpg2 with h2 | h2
          · by_cases hc : isEvalStmtPhaseName pg.phase = true
            · rw [if_pos hc] at h2
              exact actionNavItems_kind pg.phase phase _ i a h2
            · rw [if_neg hc] at h2
              simp at h2
          · simp at h2
    unfold includedKind at hk
    simp only [Bool.and_eq_true, decide_eq_true_eq, ne_eq] at hk
    simpa using hk
  · rw [show getActionsForStmt actLine true (some m) stmtIndex =
        (match ((m.find? (fun p => p.1 == stmtIndex)).map (fun p => p.2) :
            Option PcgProgramPointData) with
          | none => ([] : List String)
          | some (.successor acts) => pushIncludedLines actLine acts []
          | some (.stmt d) =>
            pushIncludedLines actLine d.post_main
              (pushIncludedLines actLine d.pre_main
                (pushIncludedLines actLine d.post_operands
                  (pushIncludedLines actLine d.pre_operands []))))
        from rfl, hfind]
    simp only [Option.map]
    cases hpd : pd.2 with
    | successor acts =>
      simp [pushIncludedLines_eq, listedActions]
    | stmt d =>
      simp [pushIncludedLines_eq, listedActions, List.filter_append]
  · intro d gs pg i a hpg hcanon hget hinc
    simp only [buildNavigationItems]
    apply List.mem_flatMap.mpr
    refine ⟨pg, hpg, ?_⟩
    unfold navItemsForPhaseEntry
    apply List.mem_append_left
    rw [if_pos hcanon]
    unfold actionNavItems
    apply List.mem_filterMap.mpr
    exact ⟨(i, a), mem_enum_of_get? _ i a hget, by rw [if_pos hinc]⟩

/-- C10 witness: a `MakePlaceOld` action in `pre_operands` contributes
neither a navigation item nor an annotation line, while the `AddEdge` action
at index 0 appears. -/
theorem excluded_action_kinds_witness :
    ([(0, PcgProgramPointData.stmt exStmtData)].find?
        (fun p => p.1 == 0) = some (0, PcgProgramPointData.stmt exStmtData)) ∧
    getActionsForStmt (fun k => k.rendered) true
        (some [(0, PcgProgramPointData.stmt exStmtData)]) 0 = ["x alias y"] ∧
    NavItem.action "pre_operands" 0 exAction ∈
      buildNavigationItems (.stmt exStmtData) (some exGraphs) := by
  have h := excluded_action_kinds (fun k => k.rendered)
    (.stmt exStmtData) (some exGraphs) [(0, PcgProgramPointData.stmt exStmtData)] 0
    (0, PcgProgramPointData.stmt exStmtData) (by decide)
  refine ⟨by decide, h.2.1.trans (by decide), ?_⟩
  exact h.2.2 exStmtData exGraphs ⟨"pre_operands", "g1.dot"⟩ 0 exAction
    (by decide) (by decide) (by decide) (by decide)

end PcgViz
